import Mathlib

/-!
Shallow embedding of `tracked_dict` (src/tracked_dict/__init__.py): a pair of
wrappers, `TrackedDict` over a mapping and `TrackedList` over a sequence, that
record which keys were read and report dotted paths of never-read keys.

Raw decoded trees (the kind produced by JSON/YAML/TOML decoding) are modelled
by `Value`: scalars, mappings as insertion-ordered association lists with
string keys (Python dicts preserve insertion order), and sequences as lists.
A tracked node is `TNode`, one inductive with the two variants; its mutable
bookkeeping (`_accessed` set, `_children` cache) becomes explicit fields, and
every mutating method becomes a function returning the result together with
the updated node.
-/

namespace TrackedDictModel

/-- A raw decoded tree node: scalar, mapping (association list, insertion
order, string keys) or sequence. -/
inductive Value where
  | prim : String → Value
  | vdict : List (String × Value) → Value
  | vlist : List Value → Value

/-- Association-list lookup, the model of Python `d[k]` / `k in d` on the raw
dict (keys are unique in a real Python dict). -/
def alookup {α β : Type} [DecidableEq α] : α → List (α × β) → Option β
  | _, [] => none
  | k, (k', v) :: rest => if k = k' then some v else alookup k rest

/-- Association-list update, the model of Python `d[k] = v`: replace in place
when the key exists, append otherwise. -/
def aset {α β : Type} [DecidableEq α] : List (α × β) → α → β → List (α × β)
  | [], k, v => [(k, v)]
  | (k', v') :: rest, k, v =>
    if k = k' then (k, v) :: rest else (k', v') :: aset rest k v

/-- Python `set.add`: sets are modelled as duplicate-free-by-construction
lists; membership is what matters. -/
def sAdd (s : List String) (k : String) : List String :=
  if k ∈ s then s else s ++ [k]

/-- Python `set.update(keys)`. -/
def sUnion (s : List String) (ks : List String) : List String :=
  ks.foldl sAdd s

/-- Python list indexing with an `int` index: negative indices count from the
end, out-of-bounds indices fail (`IndexError`). -/
def pyIndex (l : List Value) (i : Int) : Option Value :=
  let n : Int := l.length
  let j : Int := if i < 0 then i + n else i
  if 0 ≤ j ∧ j < n then l.get? j.toNat else none

/-- A tracked node: `TrackedDict(data, path, accessed, children)` or
`TrackedList(data, path, children)` (a list node has no accessed set; its
children cache is keyed by the `int` index as given). -/
inductive TNode where
  | tdict : List (String × Value) → String → List String →
      List (String × TNode) → TNode
  | tlist : List Value → String → List (Int × TNode) → TNode

/-- The `_accessed` field of a map node (a list node has none). -/
def TNode.accessedOf : TNode → List String
  | .tdict _ _ acc _ => acc
  | .tlist _ _ _ => []

/-- The `_children` cache of a map node. -/
def TNode.childrenOf : TNode → List (String × TNode)
  | .tdict _ _ _ ch => ch
  | .tlist _ _ _ => []

/-- The result of a read through a wrapper: a tracked node (the value was a
mapping or a sequence) or a raw value passed through unchanged. -/
inductive Res where
  | node : TNode → Res
  | raw : Value → Res

/-- Method `TrackedDict._child_path`: `f"{self._path}.{key}" if self._path else
str(key)`. -/
def child_path (path key : String) : String :=
  if path = "" then key else path ++ "." ++ key

/-- The path `TrackedList._wrap` gives a child at `index`:
`f"{self._path}[{index}]"`. -/
def lchild_path (path : String) (index : Int) : String :=
  path ++ "[" ++ toString index ++ "]"

/-- Method `TrackedDict._wrap(key, value)`, acting on the fields it touches (it reads
`self._path` and reads/writes `self._children`): a dict value is returned as a
cached-or-new child `TrackedDict`, a list value as a cached-or-new child
`TrackedList`, anything else is returned unchanged. -/
def wrapCh (path : String) (ch : List (String × TNode)) (key : String)
    (value : Value) : Res × List (String × TNode) :=
  match value with
  | .vdict m =>
    match alookup key ch with
    | some c => (.node c, ch)
    | none =>
      let c := TNode.tdict m (child_path path key) [] []
      (.node c, aset ch key c)
  | .vlist l =>
    match alookup key ch with
    | some c => (.node c, ch)
    | none =>
      let c := TNode.tlist l (child_path path key) []
      (.node c, aset ch key c)
  | v => (.raw v, ch)

/-- Method `TrackedList._wrap(index, value)`, acting on the children cache. -/
def lwrapCh (path : String) (ch : List (Int × TNode)) (index : Int)
    (value : Value) : Res × List (Int × TNode) :=
  match value with
  | .vdict m =>
    match alookup index ch with
    | some c => (.node c, ch)
    | none =>
      let c := TNode.tdict m (lchild_path path index) [] []
      (.node c, aset ch index c)
  | .vlist l =>
    match alookup index ch with
    | some c => (.node c, ch)
    | none =>
      let c := TNode.tlist l (lchild_path path index) []
      (.node c, aset ch index c)
  | v => (.raw v, ch)

/-- Lexicographic comparison of character lists by code point, the order
Python uses to compare strings. -/
def charListLe : List Char → List Char → Bool
  | [], _ => true
  | _ :: _, [] => false
  | c :: cs, d :: ds =>
    if c.toNat < d.toNat then true
    else if d.toNat < c.toNat then false
    else charListLe cs ds

/-- Python string comparison `a <= b`: lexicographic by code point. -/
def strLe (a b : String) : Bool :=
  charListLe a.data b.data

/-- Insert a string into a (sorted) list keeping lexicographic order; building
block of `sortStrs`, the model of Python `sorted` on a list of strings. -/
def insSorted (x : String) : List String → List String
  | [] => [x]
  | y :: rest => if strLe x y then x :: y :: rest else y :: insSorted x rest

/-- Python `sorted` over a list of strings: a sorted permutation of the input
(on strings any correct sort yields the same list, so insertion sort models
Timsort exactly). -/
def sortStrs (l : List String) : List String :=
  l.foldr insSorted []

/-- A value looked up in an association list sits structurally inside it;
termination measure for the recursion of `unaccessed` through the children
cache. -/
theorem alookup_sizeOf_lt {α β : Type} [DecidableEq α] [SizeOf α] [SizeOf β]
    (k : α) (l : List (α × β)) (c : β) (h : alookup k l = some c) :
    sizeOf c < sizeOf l := by
  induction l with
  | nil => simp [alookup] at h
  | cons kv rest ih =>
    obtain ⟨k', v⟩ := kv
    simp only [alookup] at h
    split at h
    · cases h
      simp only [List.cons.sizeOf_spec, Prod.mk.sizeOf_spec]
      omega
    · have := ih h
      simp only [List.cons.sizeOf_spec]
      omega

mutual

/-- Methods `TrackedDict.unaccessed` / `TrackedList.unaccessed`: sorted list of dotted
paths of all unaccessed keys, recursively. For a map node, each key of the raw
dict contributes its own path when it was never accessed (no descent), its
cached child's report when it was accessed and a child wrapper exists, and
nothing otherwise; a list node concatenates the reports of all cached
children. -/
def TNode.unaccessed : TNode → List String
  | .tdict data path acc ch => sortStrs (unaccessedD data path acc ch)
  | .tlist _ _ ch => sortStrs (unaccessedL ch)
termination_by n => sizeOf n
decreasing_by
  all_goals simp only [TNode.tdict.sizeOf_spec, TNode.tlist.sizeOf_spec]
  · omega
  · omega

/-- The loop body of `TrackedDict.unaccessed` (`for key in self._data: ...`),
before the final `sorted`. -/
def unaccessedD : List (String × Value) → String → List String →
    List (String × TNode) → List String
  | [], _, _, _ => []
  | (k, _) :: rest, path, acc, ch =>
    (if k ∈ acc then
      match h : alookup k ch with
      | some c => TNode.unaccessed c
      | none => []
    else [child_path path k]) ++ unaccessedD rest path acc ch
termination_by data _ _ ch => sizeOf data + sizeOf ch
decreasing_by
  all_goals simp only [List.cons.sizeOf_spec, Prod.mk.sizeOf_spec]
  · have := alookup_sizeOf_lt k ch c h
    omega
  · omega

/-- The loop body of `TrackedList.unaccessed`
(`for child in self._children.values(): ...`), before the final `sorted`. -/
def unaccessedL : List (Int × TNode) → List String
  | [] => []
  | (_, c) :: rest => TNode.unaccessed c ++ unaccessedL rest
termination_by ch => sizeOf ch
decreasing_by
  all_goals simp only [List.cons.sizeOf_spec, Prod.mk.sizeOf_spec]
  · omega
  · omega

end

/-- Method `TrackedDict.__getitem__`: `self._accessed.add(key)` then
`self._wrap(key, self._data[key])`; the raw lookup raises `KeyError` (here
`none`) after the key was already marked. On a list node the operation does
not exist; the fallthrough returns the node unchanged. -/
def TrackedDict.getitem : TNode → String → Option Res × TNode
  | .tdict data path acc ch, key =>
    let acc' := sAdd acc key
    match alookup key data with
    | none => (none, .tdict data path acc' ch)
    | some v =>
      let rc := wrapCh path ch key v
      (some rc.1, .tdict data path acc' rc.2)
  | n, _ => (none, n)

/-- Method `TrackedDict.get(key, default)`: marks the key accessed regardless of
presence; returns the wrapped value when present, else the default itself. -/
def TrackedDict.get : TNode → String → Value → Res × TNode
  | .tdict data path acc ch, key, default =>
    let acc' := sAdd acc key
    match alookup key data with
    | some v =>
      let rc := wrapCh path ch key v
      (rc.1, .tdict data path acc' rc.2)
    | none => (.raw default, .tdict data path acc' ch)
  | n, _, default => (.raw default, n)

/-- Method `TrackedDict.__contains__`: `key in self._data`; reads only the raw
dict. -/
def TrackedDict.contains : TNode → String → Bool × TNode
  | .tdict data path acc ch, key =>
    ((alookup key data).isSome, .tdict data path acc ch)
  | n, _ => (false, n)

/-- Method `TrackedDict.__iter__`: `iter(self._data)`, the keys in natural order;
reads only the raw dict. -/
def TrackedDict.iter : TNode → List String × TNode
  | .tdict data path acc ch => (data.map Prod.fst, .tdict data path acc ch)
  | n => ([], n)

/-- Method `TrackedDict.keys`: `self._data.keys()`; reads only the raw dict. -/
def TrackedDict.keys : TNode → List String × TNode
  | .tdict data path acc ch => (data.map Prod.fst, .tdict data path acc ch)
  | n => ([], n)

/-- The generator loop shared by `values` and `items`
(`for key in self._data: ... self._wrap(key, self._data[key])`), threading the
children cache and keeping each key with its wrapped value. -/
def itemsCh (path : String) : List (String × TNode) → List (String × Value) →
    List (String × Res) × List (String × TNode)
  | ch, [] => ([], ch)
  | ch, (k, v) :: rest =>
    let rc := wrapCh path ch k v
    let rest' := itemsCh path rc.2 rest
    ((k, rc.1) :: rest'.1, rest'.2)

/-- Method `TrackedDict.values` (run to exhaustion): marks all keys accessed, then
yields the wrapped value of each key in natural order. -/
def TrackedDict.values : TNode → List Res × TNode
  | .tdict data path acc ch =>
    let acc' := sUnion acc (data.map Prod.fst)
    let rs := itemsCh path ch data
    (rs.1.map Prod.snd, .tdict data path acc' rs.2)
  | n => ([], n)

/-- Method `TrackedDict.items` (run to exhaustion): marks all keys accessed, then
yields each key with its wrapped value in natural order. -/
def TrackedDict.items : TNode → List (String × Res) × TNode
  | .tdict data path acc ch =>
    let acc' := sUnion acc (data.map Prod.fst)
    let rs := itemsCh path ch data
    (rs.1, .tdict data path acc' rs.2)
  | n => ([], n)

/-- Method `TrackedDict.mark_accessed(*keys)`: `self._accessed.update(keys)`. -/
def TrackedDict.mark_accessed : TNode → List String → TNode
  | .tdict data path acc ch, ks => .tdict data path (sUnion acc ks) ch
  | n, _ => n

/-- Method `TrackedDict.mark_all_accessed`:
`self._accessed.update(self._data.keys())`. -/
def TrackedDict.mark_all_accessed : TNode → TNode
  | .tdict data path acc ch => .tdict data path (sUnion acc (data.map Prod.fst)) ch
  | n => n

/-- Method `TrackedDict.accessed_keys`: a snapshot of the accessed set. -/
def TrackedDict.accessed_keys : TNode → List String
  | .tdict _ _ acc _ => acc
  | _ => []

/-- Methods `TrackedDict.__len__` / `TrackedList.__len__`: the raw structure's
length. -/
def TNode.lenOf : TNode → Nat
  | .tdict data _ _ _ => data.length
  | .tlist data _ _ => data.length

/-- Methods `TrackedDict.__bool__` / `TrackedList.__bool__`: non-emptiness of the raw
structure. -/
def TNode.boolOf : TNode → Bool
  | .tdict data _ _ _ => !data.isEmpty
  | .tlist data _ _ => !data.isEmpty

/-- Property `TrackedDict.raw`: the underlying plain dict. -/
def TrackedDict.rawOf : TNode → List (String × Value)
  | .tdict data _ _ _ => data
  | _ => []

/-- Property `TrackedList.raw`: the underlying plain list. -/
def TrackedList.rawOf : TNode → List Value
  | .tlist data _ _ => data
  | _ => []

/-- Method `TrackedList.__getitem__`: `self._wrap(index, self._data[index])`; the raw
indexing raises `IndexError` (here `none`) before any bookkeeping changes. -/
def TrackedList.getitem : TNode → Int → Option Res × TNode
  | .tlist data path ch, i =>
    match pyIndex data i with
    | none => (none, .tlist data path ch)
    | some v =>
      let rc := lwrapCh path ch i v
      (some rc.1, .tlist data path rc.2)
  | n, _ => (none, n)

/-- The loop of `TrackedList.__iter__`
(`for i in range(len(self._data)): yield self._wrap(i, self._data[i])`). -/
def literGo (path : String) (i : Nat) : List (Int × TNode) → List Value →
    List Res × List (Int × TNode)
  | ch, [] => ([], ch)
  | ch, v :: rest =>
    let rc := lwrapCh path ch (Int.ofNat i) v
    let rest' := literGo path (i + 1) rc.2 rest
    (rc.1 :: rest'.1, rest'.2)

/-- Method `TrackedList.__iter__` (run to exhaustion): yields wrapped elements in
order. -/
def TrackedList.iter : TNode → List Res × TNode
  | .tlist data path ch =>
    let rs := literGo path 0 ch data
    (rs.1, .tlist data path rs.2)
  | n => ([], n)

mutual

/-- Python structural equality (`==`) between raw values: scalars by payload,
dicts by unordered key-for-key comparison (same size and every key of the left
maps to an equal value on the right), lists pointwise. -/
def pyEq : Value → Value → Bool
  | .prim a, .prim b => a == b
  | .vdict m1, .vdict m2 => m1.length == m2.length && pyEqPairs m1 m2
  | .vlist l1, .vlist l2 => pyEqElems l1 l2
  | _, _ => false
termination_by v _ => sizeOf v
decreasing_by
  all_goals simp only [Value.vdict.sizeOf_spec, Value.vlist.sizeOf_spec]
  · omega
  · omega

/-- Every pair of the left dict looked up and compared in the right dict. -/
def pyEqPairs : List (String × Value) → List (String × Value) → Bool
  | [], _ => true
  | (k, v) :: rest, m2 =>
    (match alookup k m2 with
     | some v2 => pyEq v v2
     | none => false) && pyEqPairs rest m2
termination_by l _ => sizeOf l
decreasing_by
  all_goals simp only [List.cons.sizeOf_spec, Prod.mk.sizeOf_spec]
  · omega
  · omega

/-- Pointwise comparison of two raw lists. -/
def pyEqElems : List Value → List Value → Bool
  | [], [] => true
  | v :: r, v2 :: r2 => pyEq v v2 && pyEqElems r r2
  | _, _ => false
termination_by l _ => sizeOf l
decreasing_by
  all_goals simp only [List.cons.sizeOf_spec]
  · omega
  · omega

end

/-- Method `TrackedDict.__eq__` against another `TrackedDict`:
`self._data == other._data`. -/
def TrackedDict.eqTracked : TNode → TNode → Bool
  | .tdict d _ _ _, .tdict d2 _ _ _ => pyEq (.vdict d) (.vdict d2)
  | _, _ => false

/-- Method `TrackedDict.__eq__` against a plain dict: `self._data == other`. -/
def TrackedDict.eqPlain : TNode → List (String × Value) → Bool
  | .tdict d _ _ _, other => pyEq (.vdict d) (.vdict other)
  | _, _ => false

/-- Method `TrackedList.__eq__` against another `TrackedList`:
`self._data == other._data`. -/
def TrackedList.eqTracked : TNode → TNode → Bool
  | .tlist d _ _, .tlist d2 _ _ => pyEq (.vlist d) (.vlist d2)
  | _, _ => false

/-- Method `TrackedList.__eq__` against a plain list: `self._data == other`. -/
def TrackedList.eqPlain : TNode → List Value → Bool
  | .tlist d _ _, other => pyEq (.vlist d) (.vlist other)
  | _, _ => false

/-- One step of a chained subscript expression: a map key or a sequence
index. -/
inductive PathStep where
  | dkey : String → PathStep
  | lidx : Int → PathStep

/-- A chained read such as `d["a"]["b"][0]["c"]` evaluated against the root:
each step is the node's `__getitem__` (mark, then wrap), and because in Python
the child handed out is the very object stored in the parent's cache, the
mutations the rest of the chain performs on it are written back into the
cache. A step that misses, or hits a scalar before the chain ends, stops (the
expression raises there). -/
def readPath : TNode → List PathStep → TNode
  | n, [] => n
  | .tdict data path acc ch, .dkey k :: rest =>
    let acc' := sAdd acc k
    (match alookup k data with
     | some (.vdict m) =>
       let c := match alookup k ch with
         | some c => c
         | none => TNode.tdict m (child_path path k) [] []
       .tdict data path acc' (aset ch k (readPath c rest))
     | some (.vlist l) =>
       let c := match alookup k ch with
         | some c => c
         | none => TNode.tlist l (child_path path k) []
       .tdict data path acc' (aset ch k (readPath c rest))
     | _ => .tdict data path acc' ch)
  | .tlist data path ch, .lidx i :: rest =>
    (match pyIndex data i with
     | some (.vdict m) =>
       let c := match alookup i ch with
         | some c => c
         | none => TNode.tdict m (lchild_path path i) [] []
       .tlist data path (aset ch i (readPath c rest))
     | some (.vlist l) =>
       let c := match alookup i ch with
         | some c => c
         | none => TNode.tlist l (lchild_path path i) []
       .tlist data path (aset ch i (readPath c rest))
     | _ => .tlist data path ch)
  | n, _ :: _ => n
termination_by _ steps => steps.length

/-- What one key contributes to `unaccessed()` as the spec words it: an
unaccessed key contributes its own path and is not descended into; an accessed
key with a cached child contributes that child's recursive report; an accessed
key with no cached child contributes nothing. -/
def keyContrib (path : String) (acc : List String) (ch : List (String × TNode))
    (k : String) : List String :=
  if k ∈ acc then
    match alookup k ch with
    | some c => TNode.unaccessed c
    | none => []
  else [child_path path k]

/-- The children cache of a map node is consistent with its raw dict: every
cached child wraps exactly the raw value currently stored under its key. Holds
in every run in which the raw tree is not mutated (the wrapper never mutates
it). -/
def WFchildren (data : List (String × Value)) (ch : List (String × TNode)) :
    Prop :=
  ∀ k c, alookup k ch = some c →
    match alookup k data with
    | some (.vdict m) => ∃ pth a cc, c = TNode.tdict m pth a cc
    | some (.vlist l) => ∃ pth cc, c = TNode.tlist l pth cc
    | _ => False

/-- A read result is the wrapping of a given raw value: a mapping comes back
as a tracked map node over that mapping, a sequence as a tracked sequence node
over that sequence, and a scalar comes back raw and unchanged. -/
def wrapsValue (r : Res) (v : Value) : Prop :=
  match v with
  | .vdict m => ∃ pth a cc, r = Res.node (TNode.tdict m pth a cc)
  | .vlist l => ∃ pth cc, r = Res.node (TNode.tlist l pth cc)
  | v => r = Res.raw v

/-- The invariant of claim C10: every key with a cached child wrapper is also
in the accessed set (trivial for a sequence node, which has no accessed
set). -/
def Dinv : TNode → Prop
  | .tdict _ _ acc ch => ∀ k, (alookup k ch).isSome → k ∈ acc
  | .tlist _ _ _ => True

/-! Helper lemmas about the set, association-list and sorting primitives. -/

theorem mem_sAdd_self (s : List String) (k : String) : k ∈ sAdd s k := by
  unfold sAdd
  split
  · assumption
  · simp

theorem mem_sAdd_of_mem {x : String} {s : List String} (k : String)
    (h : x ∈ s) : x ∈ sAdd s k := by
  unfold sAdd
  split
  · exact h
  · simp [h]

theorem mem_sAdd_iff {x k : String} {s : List String} :
    x ∈ sAdd s k ↔ x ∈ s ∨ x = k := by
  unfold sAdd
  split
  · rename_i hk
    constructor
    · exact fun h => Or.inl h
    · rintro (h | rfl)
      · exact h
      · exact hk
  · simp

theorem mem_sUnion_left {x : String} {s : List String} (ks : List String)
    (h : x ∈ s) : x ∈ sUnion s ks := by
  induction ks generalizing s with
  | nil => exact h
  | cons k rest ih => exact ih (mem_sAdd_of_mem k h)

theorem mem_sUnion_right {x : String} {s : List String} {ks : List String}
    (h : x ∈ ks) : x ∈ sUnion s ks := by
  induction ks generalizing s with
  | nil => cases h
  | cons k rest ih =>
    rcases List.mem_cons.mp h with rfl | h'
    · exact mem_sUnion_left rest (mem_sAdd_self s x)
    · exact ih h'

theorem alookup_aset {α β : Type} [DecidableEq α] (l : List (α × β))
    (k k' : α) (v : β) :
    alookup k' (aset l k v) = if k' = k then some v else alookup k' l := by
  induction l with
  | nil =>
    by_cases h : k' = k <;> simp [aset, alookup, h]
  | cons kv rest ih =>
    obtain ⟨k1, v1⟩ := kv
    by_cases h1 : k = k1
    · subst h1
      by_cases h2 : k' = k <;> simp [aset, alookup, h2]
    · by_cases h2 : k' = k1
      · have h3 : ¬k' = k := fun hh => h1 (hh.symm.trans h2)
        have h4 : ¬k1 = k := fun hh => h1 hh.symm
        simp [aset, alookup, h1, h2, h3, h4]
      · simp [aset, alookup, h1, h2, ih]

theorem alookup_aset_self {α β : Type} [DecidableEq α] (l : List (α × β))
    (k : α) (v : β) : alookup k (aset l k v) = some v := by
  simp [alookup_aset]

theorem charListLe_total (a b : List Char) :
    charListLe a b = true ∨ charListLe b a = true := by
  induction a generalizing b with
  | nil => left; rfl
  | cons c cs ih =>
    cases b with
    | nil => right; rfl
    | cons d ds =>
      simp only [charListLe]
      rcases Nat.lt_trichotomy c.toNat d.toNat with h | h | h
      · left; simp [h]
      · have h1 : ¬c.toNat < d.toNat := by omega
        have h2 : ¬d.toNat < c.toNat := by omega
        rcases ih ds with hh | hh
        · left; simp [h1, h2, hh]
        · right; simp [h1, h2, hh]
      · have h1 : ¬c.toNat < d.toNat := by omega
        right; simp [h, h1]

theorem charListLe_trans {a b c : List Char} (h1 : charListLe a b = true)
    (h2 : charListLe b c = true) : charListLe a c = true := by
  induction a generalizing b c with
  | nil => rfl
  | cons x xs ih =>
    cases b with
    | nil => simp [charListLe] at h1
    | cons y ys =>
      cases c with
      | nil => simp [charListLe] at h2
      | cons z zs =>
        simp only [charListLe] at h1 h2 ⊢
        rcases Nat.lt_trichotomy x.toNat y.toNat with hxy | hxy | hxy
        · rcases Nat.lt_trichotomy y.toNat z.toNat with hyz | hyz | hyz
          · simp [show x.toNat < z.toNat by omega]
          · simp [show x.toNat < z.toNat by omega]
          · have c1 : ¬y.toNat < z.toNat := by omega
            simp [c1, hyz] at h2
        · rcases Nat.lt_trichotomy y.toNat z.toNat with hyz | hyz | hyz
          · simp [show x.toNat < z.toNat by omega]
          · have c1 : ¬x.toNat < y.toNat := by omega
            have c2 : ¬y.toNat < x.toNat := by omega
            have c3 : ¬y.toNat < z.toNat := by omega
            have c4 : ¬z.toNat < y.toNat := by omega
            have c5 : ¬x.toNat < z.toNat := by omega
            have c6 : ¬z.toNat < x.toNat := by omega
            simp only [c1, c2, if_false, if_neg] at h1
            simp only [c3, c4, if_false, if_neg] at h2
            simp only [c5, c6, if_false, if_neg]
            exact ih h1 h2
          · have c1 : ¬y.toNat < z.toNat := by omega
            simp [c1, hyz] at h2
        · have c1 : ¬x.toNat < y.toNat := by omega
          simp [c1, hxy] at h1

theorem strLe_total (a b : String) : strLe a b = true ∨ strLe b a = true :=
  charListLe_total a.data b.data

theorem strLe_trans {a b c : String} (h1 : strLe a b = true)
    (h2 : strLe b c = true) : strLe a c = true :=
  charListLe_trans h1 h2

theorem insSorted_perm (x : String) (l : List String) :
    (insSorted x l).Perm (x :: l) := by
  induction l with
  | nil => simp [insSorted]
  | cons y rest ih =>
    unfold insSorted
    split
    · exact List.Perm.refl _
    · exact (ih.cons y).trans (List.Perm.swap x y rest)

theorem mem_insSorted {b x : String} {l : List String} :
    b ∈ insSorted x l ↔ b = x ∨ b ∈ l := by
  rw [(insSorted_perm x l).mem_iff]
  simp

theorem insSorted_sorted (x : String) (l : List String)
    (h : l.Sorted fun a b => strLe a b = true) :
    (insSorted x l).Sorted fun a b => strLe a b = true := by
  induction l with
  | nil => simp [insSorted]
  | cons y rest ih =>
    rw [List.sorted_cons] at h
    unfold insSorted
    split
    · rename_i hxy
      rw [List.sorted_cons]
      refine ⟨?_, List.sorted_cons.mpr h⟩
      intro b hb
      rcases List.mem_cons.mp hb with rfl | hb'
      · exact hxy
      · exact strLe_trans hxy (h.1 b hb')
    · rename_i hxy
      rw [List.sorted_cons]
      constructor
      · intro b hb
        rcases mem_insSorted.mp hb with hbe | hb'
        · rcases strLe_total x y with hh | hh
          · exact absurd hh hxy
          · exact hbe ▸ hh
        · exact h.1 b hb'
      · exact ih h.2

theorem sortStrs_perm (l : List String) : (sortStrs l).Perm l := by
  induction l with
  | nil => rfl
  | cons x rest ih =>
    show (insSorted x (sortStrs rest)).Perm (x :: rest)
    exact (insSorted_perm x (sortStrs rest)).trans (ih.cons x)

theorem sortStrs_sorted (l : List String) :
    (sortStrs l).Sorted fun a b => strLe a b = true := by
  induction l with
  | nil => simp [sortStrs]
  | cons x rest ih => exact insSorted_sorted x (sortStrs rest) ih

/-! Rewriting `unaccessed` into its per-key form, and facts about the wrap
cache. -/

theorem unaccessedD_eq_flatMap (data : List (String × Value)) (path : String)
    (acc : List String) (ch : List (String × TNode)) :
    unaccessedD data path acc ch =
      data.flatMap fun kv => keyContrib path acc ch kv.1 := by
  induction data with
  | nil => simp [unaccessedD]
  | cons kv rest ih =>
    obtain ⟨k, v⟩ := kv
    rw [unaccessedD, ih]
    simp only [List.flatMap_cons]
    congr 1
    unfold keyContrib
    split
    · cases halookup : alookup k ch <;> simp [halookup]
    · rfl

theorem unaccessed_tdict (data : List (String × Value)) (path : String)
    (acc : List String) (ch : List (String × TNode)) :
    TNode.unaccessed (.tdict data path acc ch) =
      sortStrs (data.flatMap fun kv => keyContrib path acc ch kv.1) := by
  rw [TNode.unaccessed, unaccessedD_eq_flatMap]

theorem unaccessedL_eq_flatMap (ch : List (Int × TNode)) :
    unaccessedL ch = ch.flatMap fun ic => TNode.unaccessed ic.2 := by
  induction ch with
  | nil => simp [unaccessedL]
  | cons ic rest ih =>
    obtain ⟨i, c⟩ := ic
    rw [unaccessedL, ih]
    simp

theorem unaccessed_tlist (data : List Value) (path : String)
    (ch : List (Int × TNode)) :
    TNode.unaccessed (.tlist data path ch) =
      sortStrs (ch.flatMap fun ic => TNode.unaccessed ic.2) := by
  rw [TNode.unaccessed, unaccessedL_eq_flatMap]

theorem wrapCh_cached_dict (path : String) (ch : List (String × TNode))
    (key : String) (m : List (String × Value)) (c : TNode)
    (h : alookup key ch = some c) :
    wrapCh path ch key (.vdict m) = (.node c, ch) := by
  simp [wrapCh, h]

theorem wrapCh_cached_list (path : String) (ch : List (String × TNode))
    (key : String) (l : List Value) (c : TNode)
    (h : alookup key ch = some c) :
    wrapCh path ch key (.vlist l) = (.node c, ch) := by
  simp [wrapCh, h]

theorem wrapCh_idem (path : String) (ch : List (String × TNode))
    (key : String) (v : Value) :
    wrapCh path (wrapCh path ch key v).2 key v = wrapCh path ch key v := by
  cases v with
  | prim s => rfl
  | vdict m =>
    cases h : alookup key ch with
    | some c => simp [wrapCh, h]
    | none => simp [wrapCh, h, alookup_aset_self]
  | vlist l =>
    cases h : alookup key ch with
    | some c => simp [wrapCh, h]
    | none => simp [wrapCh, h, alookup_aset_self]

theorem lwrapCh_cached_dict (path : String) (ch : List (Int × TNode))
    (i : Int) (m : List (String × Value)) (c : TNode)
    (h : alookup i ch = some c) :
    lwrapCh path ch i (.vdict m) = (.node c, ch) := by
  simp [lwrapCh, h]

theorem lwrapCh_cached_list (path : String) (ch : List (Int × TNode))
    (i : Int) (l : List Value) (c : TNode)
    (h : alookup i ch = some c) :
    lwrapCh path ch i (.vlist l) = (.node c, ch) := by
  simp [lwrapCh, h]

theorem lwrapCh_idem (path : String) (ch : List (Int × TNode))
    (i : Int) (v : Value) :
    lwrapCh path (lwrapCh path ch i v).2 i v = lwrapCh path ch i v := by
  cases v with
  | prim s => rfl
  | vdict m =>
    cases h : alookup i ch with
    | some c => simp [lwrapCh, h]
    | none => simp [lwrapCh, h, alookup_aset_self]
  | vlist l =>
    cases h : alookup i ch with
    | some c => simp [lwrapCh, h]
    | none => simp [lwrapCh, h, alookup_aset_self]

theorem wrapCh_lookup_isSome (path : String) (ch : List (String × TNode))
    (key : String) (v : Value) (k' : String)
    (h : (alookup k' (wrapCh path ch key v).2).isSome) :
    k' = key ∨ (alookup k' ch).isSome := by
  cases v with
  | prim s => exact Or.inr h
  | vdict m =>
    cases hc : alookup key ch with
    | some c =>
      rw [wrapCh_cached_dict path ch key m c hc] at h
      exact Or.inr h
    | none =>
      simp only [wrapCh, hc] at h
      rw [alookup_aset] at h
      by_cases hk : k' = key
      · exact Or.inl hk
      · rw [if_neg hk] at h
        exact Or.inr h
  | vlist l =>
    cases hc : alookup key ch with
    | some c =>
      rw [wrapCh_cached_list path ch key l c hc] at h
      exact Or.inr h
    | none =>
      simp only [wrapCh, hc] at h
      rw [alookup_aset] at h
      by_cases hk : k' = key
      · exact Or.inl hk
      · rw [if_neg hk] at h
        exact Or.inr h

theorem nodup_alookup {data : List (String × Value)}
    (hnd : (data.map Prod.fst).Nodup) :
    ∀ kv ∈ data, alookup kv.1 data = some kv.2 := by
  induction data with
  | nil => intro kv h; cases h
  | cons kv0 rest ih =>
    intro kv h
    obtain ⟨k0, v0⟩ := kv0
    simp only [List.map_cons, List.nodup_cons] at hnd
    rcases List.mem_cons.mp h with rfl | hmem
    · simp [alookup]
    · have hne : ¬kv.1 = k0 := by
        intro he
        exact hnd.1 (he ▸ List.mem_map.mpr ⟨kv, hmem, rfl⟩)
      simp only [alookup, if_neg hne]
      exact ih hnd.2 kv hmem

theorem wrapCh_wf {data : List (String × Value)} {ch : List (String × TNode)}
    (path : String) {key : String} {v : Value}
    (hwf : WFchildren data ch) (hv : alookup key data = some v) :
    wrapsValue (wrapCh path ch key v).1 v ∧
      WFchildren data (wrapCh path ch key v).2 := by
  cases v with
  | prim s => exact ⟨rfl, hwf⟩
  | vdict m =>
    cases hc : alookup key ch with
    | some c =>
      rw [wrapCh_cached_dict path ch key m c hc]
      refine ⟨?_, hwf⟩
      have h1 := hwf key c hc
      rw [hv] at h1
      obtain ⟨pth, a, cc, rfl⟩ := h1
      exact ⟨pth, a, cc, rfl⟩
    | none =>
      constructor
      · simp only [wrapCh, hc]
        exact ⟨child_path path key, [], [], rfl⟩
      · intro k c hk
        simp only [wrapCh, hc] at hk
        rw [alookup_aset] at hk
        by_cases hkk : k = key
        · rw [if_pos hkk] at hk
          cases hk
          rw [hkk, hv]
          exact ⟨child_path path key, [], [], rfl⟩
        · rw [if_neg hkk] at hk
          exact hwf k c hk
  | vlist l =>
    cases hc : alookup key ch with
    | some c =>
      rw [wrapCh_cached_list path ch key l c hc]
      refine ⟨?_, hwf⟩
      have h1 := hwf key c hc
      rw [hv] at h1
      obtain ⟨pth, cc, rfl⟩ := h1
      exact ⟨pth, cc, rfl⟩
    | none =>
      constructor
      · simp only [wrapCh, hc]
        exact ⟨child_path path key, [], rfl⟩
      · intro k c hk
        simp only [wrapCh, hc] at hk
        rw [alookup_aset] at hk
        by_cases hkk : k = key
        · rw [if_pos hkk] at hk
          cases hk
          rw [hkk, hv]
          exact ⟨child_path path key, [], rfl⟩
        · rw [if_neg hkk] at hk
          exact hwf k c hk

theorem itemsCh_fst (path : String) (data : List (String × Value))
    (ch : List (String × TNode)) :
    (itemsCh path ch data).1.map Prod.fst = data.map Prod.fst := by
  induction data generalizing ch with
  | nil => simp [itemsCh]
  | cons kv rest ih =>
    obtain ⟨k, v⟩ := kv
    simp only [itemsCh, List.map_cons]
    rw [ih]

theorem itemsCh_wf (path : String) {whole : List (String × Value)}
    (data : List (String × Value)) (ch : List (String × TNode))
    (hwf : WFchildren whole ch)
    (hsub : ∀ kv ∈ data, alookup kv.1 whole = some kv.2) :
    List.Forall₂
      (fun (pr : String × Res) (kv : String × Value) =>
        pr.1 = kv.1 ∧ wrapsValue pr.2 kv.2)
      (itemsCh path ch data).1 data ∧
      WFchildren whole (itemsCh path ch data).2 := by
  induction data generalizing ch with
  | nil => exact ⟨List.Forall₂.nil, hwf⟩
  | cons kv rest ih =>
    obtain ⟨k, v⟩ := kv
    have h1 := wrapCh_wf path hwf (hsub (k, v) (List.mem_cons_self _ _))
    have h2 := ih (wrapCh path ch k v).2 h1.2
      (fun kv h => hsub kv (List.mem_cons_of_mem _ h))
    exact ⟨List.Forall₂.cons ⟨rfl, h1.1⟩ h2.1, h2.2⟩

theorem itemsCh_lookup_isSome (path : String) (data : List (String × Value))
    (ch : List (String × TNode)) (k' : String)
    (h : (alookup k' (itemsCh path ch data).2).isSome) :
    (alookup k' ch).isSome ∨ k' ∈ data.map Prod.fst := by
  induction data generalizing ch with
  | nil => exact Or.inl h
  | cons kv rest ih =>
    obtain ⟨k, v⟩ := kv
    simp only [itemsCh] at h
    rcases ih (wrapCh path ch k v).2 h with h' | h'
    · rcases wrapCh_lookup_isSome path ch k v k' h' with rfl | h''
      · right; simp
      · left; exact h''
    · right
      simp [h']

theorem pyIndex_eq_none_iff (l : List Value) (i : Int) :
    pyIndex l i = none ↔ i < -(l.length : Int) ∨ (l.length : Int) ≤ i := by
  simp only [pyIndex]
  by_cases hneg : i < 0
  · rw [if_pos hneg]
    by_cases hin : 0 ≤ i + (l.length : Int) ∧ i + (l.length : Int) < (l.length : Int)
    · rw [if_pos hin]
      have hne : l.get? (i + (l.length : Int)).toNat ≠ none := by
        intro h0
        rw [List.get?_eq_none] at h0
        omega
      constructor
      · intro h0; exact absurd h0 hne
      · intro hc; exfalso; omega
    · rw [if_neg hin]
      constructor
      · intro _; left; omega
      · intro _; rfl
  · rw [if_neg hneg]
    by_cases hin : 0 ≤ i ∧ i < (l.length : Int)
    · rw [if_pos hin]
      have hne : l.get? i.toNat ≠ none := by
        intro h0
        rw [List.get?_eq_none] at h0
        omega
      constructor
      · intro h0; exact absurd h0 hne
      · intro hc; exfalso; omega
    · rw [if_neg hin]
      constructor
      · intro _; right; omega
      · intro _; rfl

/-! The claims. -/

/-- C2: for every map node, `unaccessed()` equals the lexicographically
sorted list obtained by visiting each key of the raw mapping in its natural
order and emitting, per key: its own path without descending when the key is
not in the accessed set; the cached child's recursive `unaccessed()` when the
key is accessed and a child tracked node is cached; nothing when the key is
accessed with no cached child. Sortedness and the fact that sorting only
reorders the collected paths are stated alongside. -/
theorem C2_unaccessed_algorithm (data : List (String × Value)) (path : String)
    (acc : List String) (ch : List (String × TNode)) :
    TNode.unaccessed (.tdict data path acc ch) =
      sortStrs (data.flatMap fun kv => keyContrib path acc ch kv.1) ∧
    (TNode.unaccessed (.tdict data path acc ch)).Sorted
      (fun a b => strLe a b = true) ∧
    (TNode.unaccessed (.tdict data path acc ch)).Perm
      (data.flatMap fun kv => keyContrib path acc ch kv.1) := by
  refine ⟨unaccessed_tdict data path acc ch, ?_, ?_⟩
  · rw [unaccessed_tdict]
    exact sortStrs_sorted _
  · rw [unaccessed_tdict]
    exact sortStrs_perm _

/-- C1 counterexample: build `{"section": {"a": 1, "b": 2}}`, read
`d["section"]` (which caches a child wrapper whose keys are all still
unaccessed), then call `mark_accessed("section")`. The claim says every path
inside the subtree of `"section"` is then absent from `unaccessed()`; in fact
`unaccessed()` recurses into the cached child and still reports
`"section.a"` (and `"section.b"`). -/
theorem C1_counterexample :
    "section.a" ∈ TNode.unaccessed (TrackedDict.mark_accessed
      ((TrackedDict.getitem
        (TNode.tdict [("section", .vdict [("a", .prim "1"), ("b", .prim "2")])]
          "" [] []) "section").2) ["section"]) := by
  have h : TNode.unaccessed (TrackedDict.mark_accessed
      ((TrackedDict.getitem
        (TNode.tdict [("section", .vdict [("a", .prim "1"), ("b", .prim "2")])]
          "" [] []) "section").2) ["section"]) =
      ["section.a", "section.b"] := by
    simp [TrackedDict.getitem, TrackedDict.mark_accessed, unaccessed_tdict,
      keyContrib, wrapCh, alookup, aset, sAdd, sUnion, child_path, sortStrs,
      insSorted, strLe, charListLe, List.foldl]
  rw [h]
  exact List.mem_cons_self _ _

/-- C1 amended: after `M.mark_accessed(k)` the key `k` is in the accessed set,
so `unaccessed()` never reports `k` itself; for `k` it reports exactly the
cached child wrapper's own recursive report — nothing at all when no child
wrapper exists for `k` (so in the spec's example, where `mark_accessed` is
called without reading the value, the whole subtree is suppressed), but still
the child's unaccessed descendants when a wrapped child already exists.
Contributions of all other keys are unchanged; marking at the parent does not
override a cached child's nested state. -/
theorem C1_mark_accessed_amended (data : List (String × Value)) (path : String)
    (acc : List String) (ch : List (String × TNode)) (k : String) :
    TNode.unaccessed (TrackedDict.mark_accessed (.tdict data path acc ch) [k]) =
      sortStrs (data.flatMap fun kv =>
        if kv.1 = k then
          match alookup k ch with
          | some c => TNode.unaccessed c
          | none => []
        else keyContrib path (sUnion acc [k]) ch kv.1) := by
  show TNode.unaccessed (.tdict data path (sUnion acc [k]) ch) = _
  rw [unaccessed_tdict]
  refine congrArg sortStrs
    (congrArg (fun f => data.flatMap f) (funext fun kv => ?_))
  by_cases hk : kv.1 = k
  · rw [if_pos hk, hk]
    unfold keyContrib
    rw [if_pos (mem_sUnion_right (List.mem_singleton_self k))]
  · rw [if_neg hk]

/-- C3: `get(k, d)` adds `k` to the accessed set whether or not `k` is present
in the raw mapping; it returns the wrapped value of `k` when present, and the
default `d` itself — passed through, never wrapped — when absent. -/
theorem C3_get_default (data : List (String × Value)) (path : String)
    (acc : List String) (ch : List (String × TNode)) (k : String) (d : Value) :
    TNode.accessedOf (TrackedDict.get (.tdict data path acc ch) k d).2 =
      sAdd acc k ∧
    k ∈ TNode.accessedOf (TrackedDict.get (.tdict data path acc ch) k d).2 ∧
    (TrackedDict.get (.tdict data path acc ch) k d).1 =
      (match alookup k data with
       | some v => (wrapCh path ch k v).1
       | none => Res.raw d) := by
  refine ⟨?_, ?_, ?_⟩
  · cases h : alookup k data <;>
      simp [TrackedDict.get, h, TNode.accessedOf]
  · cases h : alookup k data <;>
      simp [TrackedDict.get, h, TNode.accessedOf, mem_sAdd_self]
  · cases h : alookup k data <;>
      simp [TrackedDict.get, h]

/-- C5: a map key under a parent with path `p` yields `p ++ "." ++ key`, just
the key when `p` is empty; a sequence element at index `i` yields
`p ++ "[i]"`. For the tree of the spec's example, after reading `a`, then `b`,
then element `0`, then `c` through the wrappers, the root's `unaccessed()` is
exactly `["a.b[0].d"]`. -/
theorem C5_path_composition (p k lp : String) (i : Int) :
    child_path p k = (if p = "" then k else p ++ "." ++ k) ∧
    lchild_path lp i = lp ++ "[" ++ toString i ++ "]" ∧
    TNode.unaccessed (readPath
      (TNode.tdict
        [("a", .vdict [("b", .vlist [.vdict [("c", .prim "1"), ("d", .prim "2")]])])]
        "" [] [])
      [PathStep.dkey "a", PathStep.dkey "b", PathStep.lidx 0, PathStep.dkey "c"]) = ["a.b[0].d"] := by
  refine ⟨rfl, rfl, ?_⟩
  simp [readPath, unaccessed_tdict, unaccessed_tlist, keyContrib, wrapCh,
    lwrapCh, alookup, aset, sAdd, sUnion, child_path, lchild_path, pyIndex,
    sortStrs, insSorted, strLe, charListLe, List.foldl,
    show toString (0 : Int) = "0" from rfl]

/-- C6: indexed map lookup fails exactly when the key is absent from the raw
mapping, and indexed sequence lookup fails exactly when the index is outside
the raw sequence's own bounds (Python bounds: `-len <= i < len`). All other
operations of the embedding are total functions. -/
theorem C6_partiality (data : List (String × Value)) (path : String)
    (acc : List String) (ch : List (String × TNode)) (k : String)
    (ldata : List Value) (lpath : String) (lch : List (Int × TNode)) (i : Int) :
    ((TrackedDict.getitem (.tdict data path acc ch) k).1 = none ↔
      alookup k data = none) ∧
    ((TrackedList.getitem (.tlist ldata lpath lch) i).1 = none ↔
      i < -(ldata.length : Int) ∨ (ldata.length : Int) ≤ i) := by
  constructor
  · cases h : alookup k data <;> simp [TrackedDict.getitem, h]
  · rw [← pyIndex_eq_none_iff]
    cases h : pyIndex ldata i <;> simp [TrackedList.getitem, h]

/-- C4: membership tests and bare key-iteration (`__iter__` and `keys`) leave
the node — in particular its accessed set — unchanged, while value-iteration
and pair-iteration add every key of the raw mapping to the accessed set and
yield wrapped values (each yielded result is the wrapping of the raw value at
its key: a tracked node over that very mapping or sequence, or the raw scalar;
stated for raw dicts with unique keys and a cache consistent with the raw
data, which every real run satisfies). -/
theorem C4_iteration_marking (data : List (String × Value)) (path : String)
    (acc : List String) (ch : List (String × TNode)) (k : String)
    (hnd : (data.map Prod.fst).Nodup) (hwf : WFchildren data ch) :
    (TrackedDict.contains (.tdict data path acc ch) k).2 =
      .tdict data path acc ch ∧
    (TrackedDict.iter (.tdict data path acc ch)).2 = .tdict data path acc ch ∧
    (TrackedDict.keys (.tdict data path acc ch)).2 = .tdict data path acc ch ∧
    TNode.accessedOf (TrackedDict.values (.tdict data path acc ch)).2 =
      sUnion acc (data.map Prod.fst) ∧
    TNode.accessedOf (TrackedDict.items (.tdict data path acc ch)).2 =
      sUnion acc (data.map Prod.fst) ∧
    (∀ k', k' ∈ data.map Prod.fst →
      k' ∈ TNode.accessedOf (TrackedDict.values (.tdict data path acc ch)).2) ∧
    (∀ k', k' ∈ data.map Prod.fst →
      k' ∈ TNode.accessedOf (TrackedDict.items (.tdict data path acc ch)).2) ∧
    List.Forall₂
      (fun (pr : String × Res) (kv : String × Value) =>
        pr.1 = kv.1 ∧ wrapsValue pr.2 kv.2)
      (TrackedDict.items (.tdict data path acc ch)).1 data ∧
    List.Forall₂ wrapsValue (TrackedDict.values (.tdict data path acc ch)).1
      (data.map Prod.snd) := by
  refine ⟨rfl, rfl, rfl, rfl, rfl, ?_, ?_, ?_, ?_⟩
  · intro k' hk'
    exact mem_sUnion_right hk'
  · intro k' hk'
    exact mem_sUnion_right hk'
  · exact (itemsCh_wf path data ch hwf (nodup_alookup hnd)).1
  · show List.Forall₂ wrapsValue ((itemsCh path ch data).1.map Prod.snd)
      (data.map Prod.snd)
    rw [List.forall₂_map_left_iff, List.forall₂_map_right_iff]
    exact ((itemsCh_wf path data ch hwf (nodup_alookup hnd)).1).imp
      fun pr kv h => h.2

/-- C4 witness: the hypotheses hold and the theorem applies at the one-key raw
dict with an empty cache. -/
theorem C4_iteration_marking_witness :
    ([("a", Value.prim "1")].map Prod.fst).Nodup ∧
    WFchildren [("a", Value.prim "1")] [] ∧
    "a" ∈ TNode.accessedOf
      (TrackedDict.values (.tdict [("a", Value.prim "1")] "" [] [])).2 := by
  have hnd : ([("a", Value.prim "1")].map Prod.fst).Nodup := by simp
  have hwf : WFchildren [("a", Value.prim "1")] [] := by
    intro k c h
    simp [alookup] at h
  refine ⟨hnd, hwf, ?_⟩
  exact (C4_iteration_marking [("a", Value.prim "1")] "" [] [] "a"
    hnd hwf).2.2.2.2.2.1 "a" (by simp)

/-- C7: wrapping the same child key/index twice returns the same child node
and the same cache — when the cache already holds a child for the key/index,
`_wrap` returns exactly that cached node and changes nothing, so repeated
descent neither creates a duplicate shadow node nor resets the child's
state — for map nodes and sequence nodes alike. -/
theorem C7_referential_stability (path : String) (ch : List (String × TNode))
    (k : String) (v : Value) (lpath : String) (lch : List (Int × TNode))
    (i : Int) (w : Value) (c c' : TNode) (m : List (String × Value))
    (l : List Value)
    (hc : alookup k ch = some c) (hc' : alookup i lch = some c') :
    wrapCh path (wrapCh path ch k v).2 k v = wrapCh path ch k v ∧
    lwrapCh lpath (lwrapCh lpath lch i w).2 i w = lwrapCh lpath lch i w ∧
    wrapCh path ch k (.vdict m) = (.node c, ch) ∧
    wrapCh path ch k (.vlist l) = (.node c, ch) ∧
    lwrapCh lpath lch i (.vdict m) = (.node c', lch) ∧
    lwrapCh lpath lch i (.vlist l) = (.node c', lch) :=
  ⟨wrapCh_idem path ch k v, lwrapCh_idem lpath lch i w,
    wrapCh_cached_dict path ch k m c hc, wrapCh_cached_list path ch k l c hc,
    lwrapCh_cached_dict lpath lch i m c' hc',
    lwrapCh_cached_list lpath lch i l c' hc'⟩

/-- C7 witness: the cached-lookup hypotheses hold at one-entry caches and the
theorem applies there. -/
theorem C7_referential_stability_witness :
    alookup "x" [("x", TNode.tdict [] "x" [] [])] =
      some (TNode.tdict [] "x" [] []) ∧
    alookup (0 : Int) [((0 : Int), TNode.tlist [] "[0]" [])] =
      some (TNode.tlist [] "[0]" []) ∧
    wrapCh "" [("x", TNode.tdict [] "x" [] [])] "x" (.vdict []) =
      (.node (TNode.tdict [] "x" [] []), [("x", TNode.tdict [] "x" [] [])]) := by
  have hc : alookup "x" [("x", TNode.tdict [] "x" [] [])] =
      some (TNode.tdict [] "x" [] []) := by
    simp [alookup]
  have hc' : alookup (0 : Int) [((0 : Int), TNode.tlist [] "[0]" [])] =
      some (TNode.tlist [] "[0]" []) := by
    simp [alookup]
  refine ⟨hc, hc', ?_⟩
  exact (C7_referential_stability "" [("x", TNode.tdict [] "x" [] [])] "x"
    (.prim "") "" [((0 : Int), TNode.tlist [] "[0]" [])] 0 (.prim "")
    (TNode.tdict [] "x" [] []) (TNode.tlist [] "[0]" []) [] [] hc hc').2.2.1

/-- C8: equality is structural and ignores tracking state. A tracked map
(resp. sequence) node compares with a plain mapping (resp. sequence) exactly
as Python `==` compares its raw data with that plain structure, and with
another tracked node of the same variant exactly as `==` compares the two raw
structures; the path, accessed set and child cache of either side are
quantified arbitrarily and do not enter the result. -/
theorem C8_structural_equality (d d2 other : List (String × Value))
    (p p2 : String) (a a2 : List String) (ch ch2 : List (String × TNode))
    (ld ld2 lother : List Value) (lp lp2 : String)
    (lch lch2 : List (Int × TNode)) :
    TrackedDict.eqPlain (.tdict d p a ch) other =
      pyEq (.vdict d) (.vdict other) ∧
    TrackedDict.eqTracked (.tdict d p a ch) (.tdict d2 p2 a2 ch2) =
      pyEq (.vdict d) (.vdict d2) ∧
    TrackedList.eqPlain (.tlist ld lp lch) lother =
      pyEq (.vlist ld) (.vlist lother) ∧
    TrackedList.eqTracked (.tlist ld lp lch) (.tlist ld2 lp2 lch2) =
      pyEq (.vlist ld) (.vlist ld2) :=
  ⟨rfl, rfl, rfl, rfl⟩

/-- C9: an indexed lookup on an absent key raises the lookup-miss error, but
the key is added to the accessed set first — the operation is not atomic, and
`accessed_keys()` afterwards contains a key that does not exist in the raw
mapping. -/
theorem C9_failed_lookup_marks (data : List (String × Value)) (path : String)
    (acc : List String) (ch : List (String × TNode)) (k : String)
    (habs : alookup k data = none) :
    (TrackedDict.getitem (.tdict data path acc ch) k).1 = none ∧
    k ∈ TNode.accessedOf (TrackedDict.getitem (.tdict data path acc ch) k).2 ∧
    k ∈ TrackedDict.accessed_keys
      (TrackedDict.getitem (.tdict data path acc ch) k).2 := by
  simp [TrackedDict.getitem, habs, TNode.accessedOf,
    TrackedDict.accessed_keys, mem_sAdd_self]

/-- C9 witness: looking up the absent key `"z"` in `{"a": 1}`. -/
theorem C9_failed_lookup_marks_witness :
    alookup "z" [("a", Value.prim "1")] = none ∧
    "z" ∈ TrackedDict.accessed_keys
      (TrackedDict.getitem
        (.tdict [("a", Value.prim "1")] "" [] []) "z").2 := by
  have habs : alookup "z" [("a", Value.prim "1")] = none := by
    simp [alookup]
  exact ⟨habs,
    (C9_failed_lookup_marks [("a", Value.prim "1")] "" [] [] "z" habs).2.2⟩

/-- C10: the invariant "every key with a cached child wrapper is in the
accessed set" is preserved by every `TrackedDict` operation: the operations
that wrap (indexed lookup, defaulted lookup, value iteration, pair iteration)
mark each wrapped key accessed before wrapping it, the marking operations only
grow the accessed set, and the remaining operations do not touch the node. -/
theorem C10_children_subset_accessed (data : List (String × Value))
    (path : String) (acc : List String) (ch : List (String × TNode))
    (k : String) (d : Value) (ks : List String)
    (hinv : Dinv (.tdict data path acc ch)) :
    Dinv (TrackedDict.getitem (.tdict data path acc ch) k).2 ∧
    Dinv (TrackedDict.get (.tdict data path acc ch) k d).2 ∧
    Dinv (TrackedDict.contains (.tdict data path acc ch) k).2 ∧
    Dinv (TrackedDict.iter (.tdict data path acc ch)).2 ∧
    Dinv (TrackedDict.keys (.tdict data path acc ch)).2 ∧
    Dinv (TrackedDict.values (.tdict data path acc ch)).2 ∧
    Dinv (TrackedDict.items (.tdict data path acc ch)).2 ∧
    Dinv (TrackedDict.mark_accessed (.tdict data path acc ch) ks) ∧
    Dinv (TrackedDict.mark_all_accessed (.tdict data path acc ch)) := by
  have hbase : ∀ k', (alookup k' ch).isSome → k' ∈ acc := hinv
  refine ⟨?_, ?_, hinv, hinv, hinv, ?_, ?_, ?_, ?_⟩
  · cases h : alookup k data with
    | none =>
      simp only [TrackedDict.getitem, h]
      intro k' h'
      exact mem_sAdd_of_mem k (hbase k' h')
    | some v =>
      simp only [TrackedDict.getitem, h]
      intro k' h'
      rcases wrapCh_lookup_isSome path ch k v k' h' with rfl | h''
      · exact mem_sAdd_self acc k'
      · exact mem_sAdd_of_mem k (hbase k' h'')
  · cases h : alookup k data with
    | none =>
      simp only [TrackedDict.get, h]
      intro k' h'
      exact mem_sAdd_of_mem k (hbase k' h')
    | some v =>
      simp only [TrackedDict.get, h]
      intro k' h'
      rcases wrapCh_lookup_isSome path ch k v k' h' with rfl | h''
      · exact mem_sAdd_self acc k'
      · exact mem_sAdd_of_mem k (hbase k' h'')
  · intro k' h'
    rcases itemsCh_lookup_isSome path data ch k' h' with h'' | h''
    · exact mem_sUnion_left _ (hbase k' h'')
    · exact mem_sUnion_right h''
  · intro k' h'
    rcases itemsCh_lookup_isSome path data ch k' h' with h'' | h''
    · exact mem_sUnion_left _ (hbase k' h'')
    · exact mem_sUnion_right h''
  · intro k' h'
    exact mem_sUnion_left _ (hbase k' h')
  · intro k' h'
    exact mem_sUnion_left _ (hbase k' h')

/-- C10 witness: the invariant holds for a fresh node over `{"a": 1}` and is
preserved through an indexed lookup there. -/
theorem C10_children_subset_accessed_witness :
    Dinv (TNode.tdict [("a", Value.prim "1")] "" [] []) ∧
    Dinv (TrackedDict.getitem
      (TNode.tdict [("a", Value.prim "1")] "" [] []) "a").2 := by
  have hinv : Dinv (TNode.tdict [("a", Value.prim "1")] "" [] []) := by
    intro k h
    simp [alookup] at h
  exact ⟨hinv, (C10_children_subset_accessed [("a", Value.prim "1")] "" [] []
    "a" (Value.prim "0") [] hinv).1⟩

end TrackedDictModel
